import Mathlib

/-!
Shallow embedding of `src/bfc.c`, a compact Brainfuck interpreter.

The embedded parts are the core identified by the design document:
* `build_jumps` — the one-pass, stack-based bracket matcher (lines 68–102);
* `tape_init` — tape allocation and zero-initialisation (lines 35–59);
* `exec` / `step` / `runLoop` — the instruction-dispatch loop (lines 104–154).

Machine integers are modelled as `Nat` with explicit `% 256` where the C
`unsigned char` arithmetic wraps; the tape and the jump table are `List Nat`;
the input and output streams are explicit `List Nat` byte sequences; the
possibly non-terminating `for` loop of `exec` is run on explicit fuel.
-/

namespace Bfc

/-- The two structural failures `build_jumps` can report (via `stderr` and the
`-1` return value in the C source): an unmatched loop-close at an index, or an
unmatched loop-open at an index. -/
inductive MatchError where
  | unmatchedClose : Nat → MatchError
  | unmatchedOpen : Nat → MatchError
deriving DecidableEq, Repr

/-- The scanning loop of `build_jumps` (bfc.c lines 77–97): `t` is the part of
the program still to scan, `i` the index of its first character, `stack` the
stack of indices of yet-unmatched loop-opens (head = most recently pushed,
mirroring `stack[sp-1]`), `jumps` the table built so far.  On a `]` with an
empty stack it fails with `unmatchedClose i` (line 83); at the end of the scan
with a non-empty stack it fails with `unmatchedOpen` at the top entry
(line 94). -/
def build_jumps_loop : List Char → Nat → List Nat → List Nat →
    Except MatchError (List Nat)
  | [], _, [], jumps => .ok jumps
  | [], _, top :: _, _ => .error (.unmatchedOpen top)
  | c :: rest, i, stack, jumps =>
    if c = '[' then
      build_jumps_loop rest (i + 1) (i :: stack) jumps
    else if c = ']' then
      match stack with
      | [] => .error (.unmatchedClose i)
      | openIdx :: stack2 =>
        build_jumps_loop rest (i + 1) stack2 ((jumps.set openIdx i).set i openIdx)
    else
      build_jumps_loop rest (i + 1) stack jumps

/-- `build_jumps` (bfc.c lines 68–102): the table starts out zeroed
(`calloc`), the stack empty, and the scan starts at index 0. -/
def build_jumps (code : List Char) : Except MatchError (List Nat) :=
  build_jumps_loop code 0 [] (List.replicate code.length 0)

/-- Dyck-depth scan used to state balancedness: starting from depth `d`,
`'['` increments the depth, `']'` decrements it (failing with `none` at depth
0, i.e. on an unmatched close), every other character is neutral.
`scanDepth code 0 = some 0` is "brackets balanced";
`scanDepth code 0 = some (d+1)` is "no unmatched close, `d+1` unmatched
opens"; `scanDepth code 0 = none` is "some close is unmatched". -/
def scanDepth : List Char → Nat → Option Nat
  | [], d => some d
  | c :: rest, d =>
    if c = '[' then scanDepth rest (d + 1)
    else if c = ']' then
      match d with
      | 0 => none
      | e + 1 => scanDepth rest e
    else scanDepth rest d

/-- The cell increment of `case '+'` (bfc.c line 114): `unsigned char`
arithmetic wraps modulo 256. -/
def incCell (v : Nat) : Nat := (v + 1) % 256

/-- The cell decrement of `case '-'` (bfc.c line 115): on a byte value
(`v < 256`) this is exactly subtraction by 1 modulo 256. -/
def decCell (v : Nat) : Nat := (v + 255) % 256

/-- The `tape_t` struct (bfc.c lines 29–33): cell buffer, cursor, length. -/
structure Tape where
  tape : List Nat
  pos : Nat
  len : Nat
deriving DecidableEq, Repr

/-- `tape_init` (bfc.c lines 35–59): a requested length of 0 is coerced to 1
(line 36), the cursor starts at 0, and every cell is zero-initialised (the
`memcpy` loop over `zero_block`). -/
def tape_init (len : Nat) : Tape :=
  { tape := List.replicate (if len = 0 then 1 else len) 0
    pos := 0
    len := if len = 0 then 1 else len }

/-- The state threaded through the dispatch loop of `exec`: the instruction
pointer `ip` (the `for` variable), the tape, and the two byte streams
(`stdin` still unread, `stdout` written so far). -/
structure ExecState where
  ip : Nat
  t : Tape
  input : List Nat
  output : List Nat
deriving DecidableEq, Repr

/-- One iteration of the `for` body of `exec` (bfc.c lines 111–151): the
`switch` on the current character followed by the unconditional `++ip` of the
`for` statement.  A taken jump therefore lands at `jumps[ip] + 1`.  Reading
from an exhausted input stream writes 0 (the `EOF` branch of `case ','`). -/
def step (code : List Char) (jumps : List Nat) (s : ExecState) : ExecState :=
  let c := code.getD s.ip ' '
  if c = '+' then
    { s with ip := s.ip + 1,
             t := { s.t with tape := s.t.tape.set s.t.pos (incCell (s.t.tape.getD s.t.pos 0)) } }
  else if c = '-' then
    { s with ip := s.ip + 1,
             t := { s.t with tape := s.t.tape.set s.t.pos (decCell (s.t.tape.getD s.t.pos 0)) } }
  else if c = '>' then
    { s with ip := s.ip + 1,
             t := { s.t with pos := if s.t.pos + 1 ≥ s.t.len then 0 else s.t.pos + 1 } }
  else if c = '<' then
    { s with ip := s.ip + 1,
             t := { s.t with pos := if s.t.pos = 0 then s.t.len - 1 else s.t.pos - 1 } }
  else if c = '.' then
    { s with ip := s.ip + 1, output := s.output ++ [s.t.tape.getD s.t.pos 0] }
  else if c = ',' then
    match s.input with
    | [] => { s with ip := s.ip + 1, t := { s.t with tape := s.t.tape.set s.t.pos 0 } }
    | b :: rest =>
      { s with ip := s.ip + 1, input := rest,
               t := { s.t with tape := s.t.tape.set s.t.pos (b % 256) } }
  else if c = '[' then
    if s.t.tape.getD s.t.pos 0 = 0 then { s with ip := jumps.getD s.ip 0 + 1 }
    else { s with ip := s.ip + 1 }
  else if c = ']' then
    if s.t.tape.getD s.t.pos 0 ≠ 0 then { s with ip := jumps.getD s.ip 0 + 1 }
    else { s with ip := s.ip + 1 }
  else
    { s with ip := s.ip + 1 }

/-- The `for (ip = 0; ip < code_len; ++ip)` loop of `exec`, run on explicit
fuel; `none` means the fuel ran out with the loop still running. -/
def runLoop (code : List Char) (jumps : List Nat) : Nat → ExecState → Option ExecState
  | 0, s => if s.ip < code.length then none else some s
  | fuel + 1, s =>
    if s.ip < code.length then runLoop code jumps fuel (step code jumps s)
    else some s

/-- The state `exec` starts its loop from: `ip = 0`, the caller's tape, the
full input stream, nothing written yet. -/
def initState (t : Tape) (input : List Nat) : ExecState :=
  { ip := 0, t := t, input := input, output := [] }

/-- `exec` (bfc.c lines 104–154): build the jump table first; on failure
return at once (line 108) with the caller's tape untouched, no input
consumed and no output produced; on success run the dispatch loop.  The
result is the observable final state `(tape, remaining input, output)`. -/
def exec (code : List Char) (t : Tape) (input : List Nat) (fuel : Nat) :
    Option (Tape × List Nat × List Nat) :=
  match build_jumps code with
  | .error _ => some (t, input, [])
  | .ok jumps =>
    match runLoop code jumps fuel (initState t input) with
    | none => none
    | some s => some (s.t, s.input, s.output)

/-- The jump-table shape asserted by the specification: sized to the program,
loop-opens point forward to their loop-close with a symmetric entry back,
loop-closes point backward to their loop-open likewise, and non-bracket
entries are zero. -/
def tableOk (code : List Char) (T : List Nat) : Prop :=
  T.length = code.length ∧
  ∀ j, j < code.length →
    (code.getD j ' ' = '[' →
      code.getD (T.getD j 0) ' ' = ']' ∧ j < T.getD j 0 ∧ T.getD (T.getD j 0) 0 = j) ∧
    (code.getD j ' ' = ']' →
      code.getD (T.getD j 0) ' ' = '[' ∧ T.getD j 0 < j ∧ T.getD (T.getD j 0) 0 = j) ∧
    (code.getD j ' ' ≠ '[' → code.getD j ' ' ≠ ']' → T.getD j 0 = 0)

/-- Well-formedness of the tape as maintained by the engine: the recorded
length matches the buffer, is at least 1, and the cursor is in bounds. -/
def TapeWF (t : Tape) : Prop :=
  t.len = t.tape.length ∧ 1 ≤ t.len ∧ t.pos < t.len

/-! ### List helper lemmas -/

theorem getD_set_eq {α : Type} (l : List α) (i : Nat) (a d : α) (h : i < l.length) :
    (l.set i a).getD i d = a := by
  induction l generalizing i with
  | nil => simp at h
  | cons x xs ih =>
    cases i with
    | zero => rfl
    | succ n => exact ih n (by simpa using h)

theorem getD_set_ne {α : Type} (l : List α) (i j : Nat) (a d : α) (h : i ≠ j) :
    (l.set i a).getD j d = l.getD j d := by
  induction l generalizing i j with
  | nil => rfl
  | cons x xs ih =>
    cases i with
    | zero =>
      cases j with
      | zero => exact absurd rfl h
      | succ m => rfl
    | succ n =>
      cases j with
      | zero => rfl
      | succ m => exact ih n m (fun hnm => h (by omega))

theorem set_getD_self {α : Type} (l : List α) (i : Nat) (d : α) (h : i < l.length) :
    l.set i (l.getD i d) = l := by
  induction l generalizing i with
  | nil => rfl
  | cons x xs ih =>
    cases i with
    | zero => rfl
    | succ n => simpa using ih n (by simpa using h)

theorem getD_append_left {α : Type} (l₁ l₂ : List α) (i : Nat) (d : α)
    (h : i < l₁.length) : (l₁ ++ l₂).getD i d = l₁.getD i d := by
  induction l₁ generalizing i with
  | nil => simp at h
  | cons x xs ih =>
    cases i with
    | zero => rfl
    | succ n => exact ih n (by simpa using h)

theorem getD_append_length {α : Type} (l₁ : List α) (c : α) (l₂ : List α) (d : α) :
    (l₁ ++ c :: l₂).getD l₁.length d = c := by
  induction l₁ with
  | nil => rfl
  | cons x xs ih => exact ih

theorem getD_replicate {α : Type} (n j : Nat) (d : α) :
    (List.replicate n d).getD j d = d := by
  induction n generalizing j with
  | zero => cases j <;> rfl
  | succ m ih =>
    cases j with
    | zero => rfl
    | succ k => exact ih k

/-! ### scanDepth lemmas -/

theorem scanDepth_append (xs ys : List Char) (d : Nat) :
    scanDepth (xs ++ ys) d = (scanDepth xs d).bind (fun e => scanDepth ys e) := by
  induction xs generalizing d with
  | nil => rfl
  | cons c xs ih =>
    by_cases hc1 : c = '['
    · simp only [List.cons_append, scanDepth, hc1, if_pos rfl]
      exact ih (d + 1)
    · by_cases hc2 : c = ']'
      · simp only [List.cons_append, scanDepth, hc1, hc2, if_neg, if_pos rfl, ite_false]
        cases d with
        | zero => rfl
        | succ e => exact ih e
      · simp only [List.cons_append, scanDepth, hc1, hc2, ite_false]
        exact ih d

theorem scanDepth_shift (xs : List Char) (d e c : Nat)
    (h : scanDepth xs d = some e) : scanDepth xs (d + c) = some (e + c) := by
  induction xs generalizing d e with
  | nil =>
    simp only [scanDepth, Option.some.injEq] at h
    simp [scanDepth, h]
  | cons x xs ih =>
    by_cases hc1 : x = '['
    · simp only [scanDepth, hc1, if_pos rfl] at h ⊢
      have := ih (d + 1) e h
      simpa [Nat.add_right_comm] using this
    · by_cases hc2 : x = ']'
      · simp only [scanDepth, hc1, hc2, ite_false, if_pos rfl] at h ⊢
        cases d with
        | zero => exact absurd h (by simp)
        | succ d2 =>
          have := ih d2 e h
          cases c with
          | zero => simpa using this
          | succ c2 =>
            have h2 : d2 + 1 + (c2 + 1) = (d2 + (c2 + 1)) + 1 := by omega
            rw [h2]
            simpa [Nat.add_right_comm] using ih d2 e h
      · simp only [scanDepth, hc1, hc2, ite_false] at h ⊢
        exact ih d e h

/-! ### Dispatch lemmas: one per branch of the `switch` in `exec` -/

theorem step_plus (code : List Char) (jumps : List Nat) (ip : Nat) (tape : List Nat)
    (pos len : Nat) (input output : List Nat) (h : code.getD ip ' ' = '+') :
    step code jumps ⟨ip, ⟨tape, pos, len⟩, input, output⟩ =
      ⟨ip + 1, ⟨tape.set pos (incCell (tape.getD pos 0)), pos, len⟩, input, output⟩ := by
  unfold step
  dsimp only
  rw [h]
  simp

theorem step_minus (code : List Char) (jumps : List Nat) (ip : Nat) (tape : List Nat)
    (pos len : Nat) (input output : List Nat) (h : code.getD ip ' ' = '-') :
    step code jumps ⟨ip, ⟨tape, pos, len⟩, input, output⟩ =
      ⟨ip + 1, ⟨tape.set pos (decCell (tape.getD pos 0)), pos, len⟩, input, output⟩ := by
  unfold step
  dsimp only
  rw [h]
  simp

theorem step_right (code : List Char) (jumps : List Nat) (ip : Nat) (tape : List Nat)
    (pos len : Nat) (input output : List Nat) (h : code.getD ip ' ' = '>') :
    step code jumps ⟨ip, ⟨tape, pos, len⟩, input, output⟩ =
      ⟨ip + 1, ⟨tape, if pos + 1 ≥ len then 0 else pos + 1, len⟩, input, output⟩ := by
  unfold step
  dsimp only
  rw [h]
  simp

theorem step_left (code : List Char) (jumps : List Nat) (ip : Nat) (tape : List Nat)
    (pos len : Nat) (input output : List Nat) (h : code.getD ip ' ' = '<') :
    step code jumps ⟨ip, ⟨tape, pos, len⟩, input, output⟩ =
      ⟨ip + 1, ⟨tape, if pos = 0 then len - 1 else pos - 1, len⟩, input, output⟩ := by
  unfold step
  dsimp only
  rw [h]
  simp

theorem step_output (code : List Char) (jumps : List Nat) (ip : Nat) (tape : List Nat)
    (pos len : Nat) (input output : List Nat) (h : code.getD ip ' ' = '.') :
    step code jumps ⟨ip, ⟨tape, pos, len⟩, input, output⟩ =
      ⟨ip + 1, ⟨tape, pos, len⟩, input, output ++ [tape.getD pos 0]⟩ := by
  unfold step
  dsimp only
  rw [h]
  simp

theorem step_input_nil (code : List Char) (jumps : List Nat) (ip : Nat) (tape : List Nat)
    (pos len : Nat) (output : List Nat) (h : code.getD ip ' ' = ',') :
    step code jumps ⟨ip, ⟨tape, pos, len⟩, [], output⟩ =
      ⟨ip + 1, ⟨tape.set pos 0, pos, len⟩, [], output⟩ := by
  unfold step
  dsimp only
  rw [h]
  simp

theorem step_input_cons (code : List Char) (jumps : List Nat) (ip : Nat) (tape : List Nat)
    (pos len b : Nat) (rest output : List Nat) (h : code.getD ip ' ' = ',') :
    step code jumps ⟨ip, ⟨tape, pos, len⟩, b :: rest, output⟩ =
      ⟨ip + 1, ⟨tape.set pos (b % 256), pos, len⟩, rest, output⟩ := by
  unfold step
  dsimp only
  rw [h]
  simp

theorem step_open_zero (code : List Char) (jumps : List Nat) (ip : Nat) (tape : List Nat)
    (pos len : Nat) (input output : List Nat) (h : code.getD ip ' ' = '[')
    (h0 : tape.getD pos 0 = 0) :
    step code jumps ⟨ip, ⟨tape, pos, len⟩, input, output⟩ =
      ⟨jumps.getD ip 0 + 1, ⟨tape, pos, len⟩, input, output⟩ := by
  unfold step
  dsimp only
  rw [h, if_pos h0]
  simp

theorem step_open_nonzero (code : List Char) (jumps : List Nat) (ip : Nat) (tape : List Nat)
    (pos len : Nat) (input output : List Nat) (h : code.getD ip ' ' = '[')
    (h0 : tape.getD pos 0 ≠ 0) :
    step code jumps ⟨ip, ⟨tape, pos, len⟩, input, output⟩ =
      ⟨ip + 1, ⟨tape, pos, len⟩, input, output⟩ := by
  unfold step
  dsimp only
  rw [h, if_neg h0]
  simp

theorem step_close_nonzero (code : List Char) (jumps : List Nat) (ip : Nat) (tape : List Nat)
    (pos len : Nat) (input output : List Nat) (h : code.getD ip ' ' = ']')
    (h0 : tape.getD pos 0 ≠ 0) :
    step code jumps ⟨ip, ⟨tape, pos, len⟩, input, output⟩ =
      ⟨jumps.getD ip 0 + 1, ⟨tape, pos, len⟩, input, output⟩ := by
  unfold step
  dsimp only
  rw [h, if_pos h0]
  simp

theorem step_close_zero (code : List Char) (jumps : List Nat) (ip : Nat) (tape : List Nat)
    (pos len : Nat) (input output : List Nat) (h : code.getD ip ' ' = ']')
    (h0 : tape.getD pos 0 = 0) :
    step code jumps ⟨ip, ⟨tape, pos, len⟩, input, output⟩ =
      ⟨ip + 1, ⟨tape, pos, len⟩, input, output⟩ := by
  unfold step
  dsimp only
  rw [h, if_neg (not_not_intro h0)]
  simp

theorem step_other (code : List Char) (jumps : List Nat) (ip : Nat) (tape : List Nat)
    (pos len : Nat) (input output : List Nat)
    (h1 : code.getD ip ' ' ≠ '+') (h2 : code.getD ip ' ' ≠ '-')
    (h3 : code.getD ip ' ' ≠ '>') (h4 : code.getD ip ' ' ≠ '<')
    (h5 : code.getD ip ' ' ≠ '.') (h6 : code.getD ip ' ' ≠ ',')
    (h7 : code.getD ip ' ' ≠ '[') (h8 : code.getD ip ' ' ≠ ']') :
    step code jumps ⟨ip, ⟨tape, pos, len⟩, input, output⟩ =
      ⟨ip + 1, ⟨tape, pos, len⟩, input, output⟩ := by
  unfold step
  dsimp only
  rw [if_neg h1, if_neg h2, if_neg h3, if_neg h4, if_neg h5, if_neg h6, if_neg h7,
    if_neg h8]

/-! ### The builder loop on a program with a failing close -/

theorem close_fail_loop (v : List Char) :
    ∀ u i stack jumps, scanDepth u stack.length = some 0 →
      build_jumps_loop (u ++ ']' :: v) i stack jumps =
        .error (.unmatchedClose (i + u.length)) := by
  intro u
  induction u with
  | nil =>
    intro i stack jumps h
    have hs : stack.length = 0 := by simpa [scanDepth] using h
    have hstack : stack = [] := List.length_eq_zero.mp hs
    subst hstack
    show build_jumps_loop (']' :: v) i [] jumps = .error (.unmatchedClose (i + 0))
    rw [build_jumps_loop]
    rw [if_neg (by decide), if_pos rfl]
    simp
  | cons c u2 ih =>
    intro i stack jumps h
    by_cases hc1 : c = '['
    · subst hc1
      have h2 : scanDepth u2 (i :: stack).length = some 0 := by
        simpa [scanDepth] using h
      rw [List.cons_append, build_jumps_loop.eq_def]
      dsimp only
      rw [if_pos rfl, ih (i + 1) (i :: stack) jumps h2]
      simp [Nat.add_comm, Nat.add_left_comm]
    · by_cases hc2 : c = ']'
      · subst hc2
        cases stack with
        | nil => simp [scanDepth] at h
        | cons a stack2 =>
          have h2 : scanDepth u2 stack2.length = some 0 := by
            simpa [scanDepth] using h
          rw [List.cons_append, build_jumps_loop]
          rw [if_neg (by decide), if_pos rfl]
          rw [ih (i + 1) stack2 ((jumps.set a i).set i a) h2]
          simp [Nat.add_comm, Nat.add_left_comm]
      · have h2 : scanDepth u2 stack.length = some 0 := by
          simpa [scanDepth, hc1, hc2] using h
        rw [List.cons_append, build_jumps_loop.eq_def]
        dsimp only
        rw [if_neg hc1, if_neg hc2, ih (i + 1) stack jumps h2]
        simp [Nat.add_comm, Nat.add_left_comm]

/-- `List.getD` agrees with indexing when the index is in bounds. -/
theorem getD_eq_getElem_of_lt {α : Type} (l : List α) (i : Nat) (d : α)
    (h : i < l.length) : l.getD i d = l[i] := by
  rw [List.getD_eq_getElem?_getD, List.getElem?_eq_getElem h]
  rfl

/-- C2: if index `k` holds a loop-close symbol reached with no unmatched
loop-open before it (the prefix before `k` scans to depth 0 without failing,
so `k` is the first failing close), then `build_jumps` fails immediately with
`unmatchedClose k` and returns no table. -/
theorem c2_unmatched_close (code : List Char) (k : Nat) (hk : k < code.length)
    (hc : code.getD k ' ' = ']')
    (hbal : scanDepth (code.take k) 0 = some 0) :
    build_jumps code = .error (.unmatchedClose k) := by
  have hdecomp : code = code.take k ++ ']' :: code.drop (k + 1) := by
    conv_lhs => rw [← List.take_append_drop k code]
    congr 1
    rw [List.drop_eq_getElem_cons hk]
    congr 1
    rw [← hc]
    exact (getD_eq_getElem_of_lt code k ' ' hk).symm
  have hlen : (code.take k).length = k := by
    rw [List.length_take]
    omega
  have h0 : scanDepth (code.take k) ([] : List Nat).length = some 0 := by
    simpa using hbal
  unfold build_jumps
  conv_lhs => rw [hdecomp]
  rw [close_fail_loop (code.drop (k + 1)) (code.take k) 0 [] _ h0, hlen]
  simp

theorem c2_witness : build_jumps ['+', ']'] = .error (.unmatchedClose 1) :=
  c2_unmatched_close ['+', ']'] 1 (by decide) rfl rfl

/-! ### The builder loop on a program with an unmatched open -/

/-- `List.getD` returns the default outside the bounds. -/
theorem getD_eq_default_of_le {α : Type} (l : List α) (i : Nat) (d : α)
    (h : l.length ≤ i) : l.getD i d = d := by
  induction l generalizing i with
  | nil => cases i <;> rfl
  | cons x xs ih =>
    cases i with
    | zero => simp at h
    | succ n => exact ih n (by simpa using h)

/-- Invariant induction for the failing-open case: scanning the rest `t` from
a stack whose entries are loop-opens of the already-scanned prefix `pre`, each
with a suffix of `pre` that balances back to its stack position, and with
`t` itself scanning cleanly to a positive final depth, the loop fails with
`unmatchedOpen k` where `k` is a loop-open whose entire suffix is balanced. -/
theorem open_fail_loop (code : List Char) :
    ∀ t pre stack jumps d,
      code = pre ++ t →
      scanDepth t stack.length = some d →
      0 < d →
      (∀ m (h : m < stack.length),
        stack.get ⟨m, h⟩ < pre.length ∧
        code.getD (stack.get ⟨m, h⟩) ' ' = '[' ∧
        scanDepth (pre.drop (stack.get ⟨m, h⟩ + 1)) 0 = some m) →
      ∃ k, build_jumps_loop t pre.length stack jumps = .error (.unmatchedOpen k) ∧
        k < code.length ∧ code.getD k ' ' = '[' ∧
        scanDepth (code.drop (k + 1)) 0 = some 0 := by
  intro t
  induction t with
  | nil =>
    intro pre stack jumps d hcode hscan hd hstack
    have hlen : stack.length = d := by simpa [scanDepth] using hscan
    cases stack with
    | nil => simp at hlen; omega
    | cons a rest =>
      have h0 : 0 < (a :: rest).length := by simp
      obtain ⟨ha1, ha2, ha3⟩ := hstack 0 h0
      have hpre : code = pre := by simpa using hcode
      subst hpre
      exact ⟨a, rfl, ha1, ha2, ha3⟩
  | cons c t2 ih =>
    intro pre stack jumps d hcode hscan hd hstack
    by_cases hc1 : c = '['
    · subst hc1
      have hscan2 : scanDepth t2 (pre.length :: stack).length = some d := by
        simp only [List.length_cons]
        simpa [scanDepth] using hscan
      have hcode2 : code = (pre ++ ['[']) ++ t2 := by
        rw [List.append_assoc]
        exact hcode
      have hplen : (pre ++ ['[']).length = pre.length + 1 := by simp
      have hstack2 : ∀ m (h : m < (pre.length :: stack).length),
          (pre.length :: stack).get ⟨m, h⟩ < (pre ++ ['[']).length ∧
          code.getD ((pre.length :: stack).get ⟨m, h⟩) ' ' = '[' ∧
          scanDepth ((pre ++ ['[']).drop ((pre.length :: stack).get ⟨m, h⟩ + 1)) 0 =
            some m := by
        intro m h
        cases m with
        | zero =>
          refine ⟨?_, ?_, ?_⟩
          · show pre.length < (pre ++ ['[']).length
            rw [hplen]
            omega
          · show code.getD pre.length ' ' = '['
            rw [hcode]
            exact getD_append_length pre '[' t2 ' '
          · show scanDepth ((pre ++ ['[']).drop (pre.length + 1)) 0 = some 0
            rw [← hplen, List.drop_length]
            rfl
        | succ m2 =>
          have h2 : m2 < stack.length := by simpa using h
          obtain ⟨ha1, ha2, ha3⟩ := hstack m2 h2
          have hget : (pre.length :: stack).get ⟨m2 + 1, h⟩ = stack.get ⟨m2, h2⟩ := rfl
          rw [hget]
          refine ⟨by rw [hplen]; omega, ha2, ?_⟩
          rw [List.drop_append_eq_append_drop,
            show stack.get ⟨m2, h2⟩ + 1 - pre.length = 0 by omega,
            scanDepth_append, ha3]
          simp [scanDepth]
      rw [build_jumps_loop.eq_def]
      dsimp only
      rw [if_pos rfl]
      obtain ⟨k, hk1, hk2, hk3, hk4⟩ :=
        ih (pre ++ ['[']) (pre.length :: stack) jumps d hcode2 hscan2 hd hstack2
      rw [hplen] at hk1
      exact ⟨k, hk1, hk2, hk3, hk4⟩
    · by_cases hc2 : c = ']'
      · subst hc2
        cases stack with
        | nil => simp [scanDepth] at hscan
        | cons a rest =>
          have hscan2 : scanDepth t2 rest.length = some d := by
            simpa [scanDepth] using hscan
          have hcode2 : code = (pre ++ [']']) ++ t2 := by
            rw [List.append_assoc]
            exact hcode
          have hplen : (pre ++ [']']).length = pre.length + 1 := by simp
          have hstack2 : ∀ m (h : m < rest.length),
              rest.get ⟨m, h⟩ < (pre ++ [']']).length ∧
              code.getD (rest.get ⟨m, h⟩) ' ' = '[' ∧
              scanDepth ((pre ++ [']']).drop (rest.get ⟨m, h⟩ + 1)) 0 = some m := by
            intro m h
            have h2 : m + 1 < (a :: rest).length := by simpa using Nat.succ_lt_succ h
            obtain ⟨hb1, hb2, hb3⟩ := hstack (m + 1) h2
            have hget : (a :: rest).get ⟨m + 1, h2⟩ = rest.get ⟨m, h⟩ := rfl
            rw [hget] at hb1 hb2 hb3
            refine ⟨by rw [hplen]; omega, hb2, ?_⟩
            rw [List.drop_append_eq_append_drop,
              show rest.get ⟨m, h⟩ + 1 - pre.length = 0 by omega,
              scanDepth_append, hb3]
            simp [scanDepth]
          rw [build_jumps_loop.eq_def]
          dsimp only
          rw [if_neg (by decide), if_pos rfl]
          obtain ⟨k, hk1, hk2, hk3, hk4⟩ :=
            ih (pre ++ [']']) rest ((jumps.set a pre.length).set pre.length a) d
              hcode2 hscan2 hd hstack2
          rw [hplen] at hk1
          exact ⟨k, hk1, hk2, hk3, hk4⟩
      · have hscan2 : scanDepth t2 stack.length = some d := by
          simpa [scanDepth, hc1, hc2] using hscan
        have hcode2 : code = (pre ++ [c]) ++ t2 := by
          rw [List.append_assoc]
          exact hcode
        have hplen : (pre ++ [c]).length = pre.length + 1 := by simp
        have hstack2 : ∀ m (h : m < stack.length),
            stack.get ⟨m, h⟩ < (pre ++ [c]).length ∧
            code.getD (stack.get ⟨m, h⟩) ' ' = '[' ∧
            scanDepth ((pre ++ [c]).drop (stack.get ⟨m, h⟩ + 1)) 0 = some m := by
          intro m h
          obtain ⟨hb1, hb2, hb3⟩ := hstack m h
          refine ⟨by rw [hplen]; omega, hb2, ?_⟩
          rw [List.drop_append_eq_append_drop,
            show stack.get ⟨m, h⟩ + 1 - pre.length = 0 by omega,
            scanDepth_append, hb3]
          simp [scanDepth, hc1, hc2]
        rw [build_jumps_loop.eq_def]
        dsimp only
        rw [if_neg hc1, if_neg hc2]
        obtain ⟨k, hk1, hk2, hk3, hk4⟩ :=
          ih (pre ++ [c]) stack jumps d hcode2 hscan2 hd hstack2
        rw [hplen] at hk1
        exact ⟨k, hk1, hk2, hk3, hk4⟩

/-- C3: on a program with no unmatched close but at least one unmatched open
(the whole-program scan ends at a positive depth), `build_jumps` scans all
positions and fails with `unmatchedOpen k`, where `k` is the innermost
unmatched loop-open: the suffix after `k` is fully balanced, and no later
loop-open has a fully balanced suffix. -/
theorem c3_unmatched_open (code : List Char) (d : Nat)
    (h : scanDepth code 0 = some (d + 1)) :
    ∃ k, build_jumps code = .error (.unmatchedOpen k) ∧
      k < code.length ∧ code.getD k ' ' = '[' ∧
      scanDepth (code.drop (k + 1)) 0 = some 0 ∧
      ∀ j, k < j → code.getD j ' ' = '[' →
        scanDepth (code.drop (j + 1)) 0 ≠ some 0 := by
  have h0 : scanDepth code ([] : List Nat).length = some (d + 1) := by simpa using h
  obtain ⟨k, hk1, hk2, hk3, hk4⟩ :=
    open_fail_loop code code [] [] (List.replicate code.length 0) (d + 1)
      (List.nil_append code).symm h0 (by omega) (by intro m hm; simp at hm)
  refine ⟨k, hk1, hk2, hk3, hk4, ?_⟩
  intro j hkj hj hbal
  have hjlt : j < code.length := by
    by_contra hge
    rw [getD_eq_default_of_le code j ' ' (by omega)] at hj
    exact absurd hj (by decide)
  have hdropj : code.drop j = '[' :: code.drop (j + 1) := by
    rw [List.drop_eq_getElem_cons hjlt]
    congr 1
    rw [← getD_eq_getElem_of_lt code j ' ' hjlt]
    exact hj
  have hsplit : code.drop (k + 1) =
      (code.drop (k + 1)).take (j - (k + 1)) ++ '[' :: code.drop (j + 1) := by
    conv_lhs => rw [← List.take_append_drop (j - (k + 1)) (code.drop (k + 1))]
    congr 1
    rw [List.drop_drop, show k + 1 + (j - (k + 1)) = j by omega]
    exact hdropj
  rw [hsplit, scanDepth_append] at hk4
  cases he : scanDepth ((code.drop (k + 1)).take (j - (k + 1))) 0 with
  | none => rw [he] at hk4; simp at hk4
  | some e =>
    rw [he] at hk4
    have hk5 : scanDepth ('[' :: code.drop (j + 1)) e = some 0 := hk4
    have hk6 : scanDepth (code.drop (j + 1)) (e + 1) = some 0 := by
      simpa [scanDepth] using hk5
    have hshift : scanDepth (code.drop (j + 1)) (0 + (e + 1)) = some (0 + (e + 1)) :=
      scanDepth_shift (code.drop (j + 1)) 0 0 (e + 1) hbal
    rw [Nat.zero_add] at hshift
    rw [hshift] at hk6
    simp at hk6

theorem c3_witness :
    ∃ k, build_jumps ['[', '[', ']'] = .error (.unmatchedOpen k) ∧
      k < (['[', '[', ']'] : List Char).length ∧
      (['[', '[', ']'] : List Char).getD k ' ' = '[' ∧
      scanDepth ((['[', '[', ']'] : List Char).drop (k + 1)) 0 = some 0 ∧
      ∀ j, k < j → (['[', '[', ']'] : List Char).getD j ' ' = '[' →
        scanDepth ((['[', '[', ']'] : List Char).drop (j + 1)) 0 ≠ some 0 :=
  c3_unmatched_open ['[', '[', ']'] 0 rfl

/-! ### The builder loop on a balanced program -/

/-- Invariant induction for the success case: scanning the rest `t` with the
prefix `pre` already processed, the stack holding the still-open loop-opens
(top first, strictly decreasing, unwritten in the table), all brackets of the
prefix that are off the stack already symmetrically paired in the table, and
everything at or beyond the scan point still zero, a clean scan of `t` back to
depth 0 yields a table with the full pairing shape. -/
theorem build_loop_ok (code : List Char) :
    ∀ t pre stack jumps,
      code = pre ++ t →
      scanDepth t stack.length = some 0 →
      jumps.length = code.length →
      (∀ s, s ∈ stack → s < pre.length ∧ code.getD s ' ' = '[' ∧ jumps.getD s 0 = 0) →
      List.Pairwise (fun a b => b < a) stack →
      (∀ j, j < pre.length → j ∉ stack →
        (code.getD j ' ' = '[' →
          code.getD (jumps.getD j 0) ' ' = ']' ∧ j < jumps.getD j 0 ∧
          jumps.getD j 0 < pre.length ∧ jumps.getD (jumps.getD j 0) 0 = j) ∧
        (code.getD j ' ' = ']' →
          code.getD (jumps.getD j 0) ' ' = '[' ∧ jumps.getD j 0 < j ∧
          jumps.getD (jumps.getD j 0) 0 = j) ∧
        (code.getD j ' ' ≠ '[' → code.getD j ' ' ≠ ']' → jumps.getD j 0 = 0)) →
      (∀ j, pre.length ≤ j → jumps.getD j 0 = 0) →
      ∃ T, build_jumps_loop t pre.length stack jumps = .ok T ∧ tableOk code T := by
  intro t
  induction t with
  | nil =>
    intro pre stack jumps hcode hscan hjlen helem hpair hmatched hzero
    have hlen : stack.length = 0 := by simpa [scanDepth] using hscan
    have hstack : stack = [] := List.length_eq_zero.mp hlen
    subst hstack
    have hpre : code = pre := by simpa using hcode
    subst hpre
    refine ⟨jumps, rfl, hjlen, ?_⟩
    intro j hj
    obtain ⟨m1, m2, m3⟩ := hmatched j hj (by simp)
    refine ⟨?_, ?_, m3⟩
    · intro h
      obtain ⟨x1, x2, _, x4⟩ := m1 h
      exact ⟨x1, x2, x4⟩
    · exact m2
  | cons c t2 ih =>
    intro pre stack jumps hcode hscan hjlen helem hpair hmatched hzero
    have hilt : pre.length < code.length := by
      rw [hcode, List.length_append, List.length_cons]
      omega
    have hcur : code.getD pre.length ' ' = c := by
      rw [hcode]
      exact getD_append_length pre c t2 ' '
    by_cases hc1 : c = '['
    · subst hc1
      have hcode2 : code = (pre ++ ['[']) ++ t2 := by
        rw [List.append_assoc]
        exact hcode
      have hplen : (pre ++ ['[']).length = pre.length + 1 := by simp
      have hscan2 : scanDepth t2 (pre.length :: stack).length = some 0 := by
        simp only [List.length_cons]
        simpa [scanDepth] using hscan
      have helem2 : ∀ s, s ∈ pre.length :: stack → s < (pre ++ ['[']).length ∧
          code.getD s ' ' = '[' ∧ jumps.getD s 0 = 0 := by
        intro s hs
        rcases List.mem_cons.mp hs with h | h
        · subst h
          exact ⟨by rw [hplen]; omega, hcur, hzero _ (Nat.le_refl _)⟩
        · obtain ⟨e1, e2, e3⟩ := helem s h
          exact ⟨by rw [hplen]; omega, e2, e3⟩
      have hpair2 : List.Pairwise (fun a b => b < a) (pre.length :: stack) := by
        rw [List.pairwise_cons]
        exact ⟨fun s hs => (helem s hs).1, hpair⟩
      have hmatched2 : ∀ j, j < (pre ++ ['[']).length → j ∉ pre.length :: stack →
          (code.getD j ' ' = '[' →
            code.getD (jumps.getD j 0) ' ' = ']' ∧ j < jumps.getD j 0 ∧
            jumps.getD j 0 < (pre ++ ['[']).length ∧
            jumps.getD (jumps.getD j 0) 0 = j) ∧
          (code.getD j ' ' = ']' →
            code.getD (jumps.getD j 0) ' ' = '[' ∧ jumps.getD j 0 < j ∧
            jumps.getD (jumps.getD j 0) 0 = j) ∧
          (code.getD j ' ' ≠ '[' → code.getD j ' ' ≠ ']' → jumps.getD j 0 = 0) := by
        intro j hj hnot
        have hji : j ≠ pre.length := fun h => hnot (by rw [h]; exact List.mem_cons_self _ _)
        have hjlt : j < pre.length := by
          rw [hplen] at hj
          omega
        have hnot2 : j ∉ stack := fun h => hnot (List.mem_cons_of_mem _ h)
        obtain ⟨m1, m2, m3⟩ := hmatched j hjlt hnot2
        refine ⟨?_, m2, m3⟩
        intro h
        obtain ⟨x1, x2, x3, x4⟩ := m1 h
        exact ⟨x1, x2, by rw [hplen]; omega, x4⟩
      have hzero2 : ∀ j, (pre ++ ['[']).length ≤ j → jumps.getD j 0 = 0 := by
        intro j hj
        rw [hplen] at hj
        exact hzero j (by omega)
      rw [build_jumps_loop.eq_def]
      dsimp only
      rw [if_pos rfl]
      obtain ⟨T, hT1, hT2⟩ :=
        ih (pre ++ ['[']) (pre.length :: stack) jumps hcode2 hscan2 hjlen helem2
          hpair2 hmatched2 hzero2
      rw [hplen] at hT1
      exact ⟨T, hT1, hT2⟩
    · by_cases hc2 : c = ']'
      · subst hc2
        cases stack with
        | nil => simp [scanDepth] at hscan
        | cons a stack2 =>
          obtain ⟨ha1, ha2, ha3⟩ := helem a (List.mem_cons_self a stack2)
          have halt : a < code.length := by omega
          have hane : a ≠ pre.length := by omega
          have hscan2 : scanDepth t2 stack2.length = some 0 := by
            simpa [scanDepth] using hscan
          have hcode2 : code = (pre ++ [']']) ++ t2 := by
            rw [List.append_assoc]
            exact hcode
          have hplen : (pre ++ [']']).length = pre.length + 1 := by simp
          have hj2len : ((jumps.set a pre.length).set pre.length a).length =
              code.length := by
            rw [List.length_set, List.length_set]
            exact hjlen
          have hgetA : ((jumps.set a pre.length).set pre.length a).getD a 0 =
              pre.length := by
            rw [getD_set_ne (jumps.set a pre.length) pre.length a a 0 (Ne.symm hane)]
            exact getD_set_eq jumps a pre.length 0 (by rw [hjlen]; exact halt)
          have hgetI : ((jumps.set a pre.length).set pre.length a).getD pre.length 0 =
              a :=
            getD_set_eq (jumps.set a pre.length) pre.length a 0
              (by rw [List.length_set, hjlen]; exact hilt)
          have hother : ∀ x, x ≠ a → x ≠ pre.length →
              ((jumps.set a pre.length).set pre.length a).getD x 0 =
                jumps.getD x 0 := by
            intro x hx1 hx2
            rw [getD_set_ne (jumps.set a pre.length) pre.length x a 0 (Ne.symm hx2),
              getD_set_ne jumps a x pre.length 0 (Ne.symm hx1)]
          have helem2 : ∀ s, s ∈ stack2 → s < (pre ++ [']']).length ∧
              code.getD s ' ' = '[' ∧
              ((jumps.set a pre.length).set pre.length a).getD s 0 = 0 := by
            intro s hs
            obtain ⟨e1, e2, e3⟩ := helem s (List.mem_cons_of_mem a hs)
            have hsa : s ≠ a := by
              have := (List.pairwise_cons.mp hpair).1 s hs
              omega
            have hsi : s ≠ pre.length := by omega
            refine ⟨by rw [hplen]; omega, e2, ?_⟩
            rw [hother s hsa hsi]
            exact e3
          have hpair2 : List.Pairwise (fun a b => b < a) stack2 :=
            (List.pairwise_cons.mp hpair).2
          have hmatched2 : ∀ j, j < (pre ++ [']']).length → j ∉ stack2 →
              (code.getD j ' ' = '[' →
                code.getD (((jumps.set a pre.length).set pre.length a).getD j 0) ' ' =
                  ']' ∧
                j < ((jumps.set a pre.length).set pre.length a).getD j 0 ∧
                ((jumps.set a pre.length).set pre.length a).getD j 0 <
                  (pre ++ [']']).length ∧
                ((jumps.set a pre.length).set pre.length a).getD
                  (((jumps.set a pre.length).set pre.length a).getD j 0) 0 = j) ∧
              (code.getD j ' ' = ']' →
                code.getD (((jumps.set a pre.length).set pre.length a).getD j 0) ' ' =
                  '[' ∧
                ((jumps.set a pre.length).set pre.length a).getD j 0 < j ∧
                ((jumps.set a pre.length).set pre.length a).getD
                  (((jumps.set a pre.length).set pre.length a).getD j 0) 0 = j) ∧
              (code.getD j ' ' ≠ '[' → code.getD j ' ' ≠ ']' →
                ((jumps.set a pre.length).set pre.length a).getD j 0 = 0) := by
            intro j hj hnot
            rw [hplen] at hj
            by_cases hja : j = a
            · subst hja
              refine ⟨?_, ?_, ?_⟩
              · intro _
                rw [hgetA]
                exact ⟨hcur, by omega, by rw [hplen]; omega, hgetI⟩
              · intro hcontra
                rw [ha2] at hcontra
                exact absurd hcontra (by decide)
              · intro h1 _
                exact absurd ha2 h1
            · by_cases hji : j = pre.length
              · subst hji
                refine ⟨?_, ?_, ?_⟩
                · intro hcontra
                  rw [hcur] at hcontra
                  exact absurd hcontra (by decide)
                · intro _
                  rw [hgetI]
                  exact ⟨ha2, by omega, hgetA⟩
                · intro _ h2
                  exact absurd hcur h2
              · have hjlt : j < pre.length := by omega
                have hnot2 : j ∉ a :: stack2 := by
                  intro hmem
                  rcases List.mem_cons.mp hmem with h | h
                  · exact hja h
                  · exact hnot h
                obtain ⟨m1, m2, m3⟩ := hmatched j hjlt hnot2
                have hjne : ((jumps.set a pre.length).set pre.length a).getD j 0 =
                    jumps.getD j 0 := hother j hja hji
                refine ⟨?_, ?_, ?_⟩
                · intro hopen
                  obtain ⟨x1, x2, x3, x4⟩ := m1 hopen
                  have hpa : jumps.getD j 0 ≠ a := by
                    intro hpa
                    rw [hpa, ha2] at x1
                    exact absurd x1 (by decide)
                  have hpi : jumps.getD j 0 ≠ pre.length := by omega
                  rw [hjne]
                  refine ⟨x1, x2, by rw [hplen]; omega, ?_⟩
                  rw [hother _ hpa hpi]
                  exact x4
                · intro hclose
                  obtain ⟨x1, x2, x3⟩ := m2 hclose
                  have hpa : jumps.getD j 0 ≠ a := by
                    intro hpa
                    rw [hpa, ha3] at x3
                    omega
                  have hpi : jumps.getD j 0 ≠ pre.length := by omega
                  rw [hjne]
                  refine ⟨x1, x2, ?_⟩
                  rw [hother _ hpa hpi]
                  exact x3
                · intro h1 h2
                  rw [hjne]
                  exact m3 h1 h2
          have hzero2 : ∀ j, (pre ++ [']']).length ≤ j →
              ((jumps.set a pre.length).set pre.length a).getD j 0 = 0 := by
            intro j hj
            rw [hplen] at hj
            have hja : j ≠ a := by omega
            have hji : j ≠ pre.length := by omega
            rw [hother j hja hji]
            exact hzero j (by omega)
          rw [build_jumps_loop.eq_def]
          dsimp only
          rw [if_neg (by decide), if_pos rfl]
          obtain ⟨T, hT1, hT2⟩ :=
            ih (pre ++ [']']) stack2 ((jumps.set a pre.length).set pre.length a)
              hcode2 hscan2 hj2len helem2 hpair2 hmatched2 hzero2
          rw [hplen] at hT1
          exact ⟨T, hT1, hT2⟩
      · have hscan2 : scanDepth t2 stack.length = some 0 := by
          simpa [scanDepth, hc1, hc2] using hscan
        have hcode2 : code = (pre ++ [c]) ++ t2 := by
          rw [List.append_assoc]
          exact hcode
        have hplen : (pre ++ [c]).length = pre.length + 1 := by simp
        have helem2 : ∀ s, s ∈ stack → s < (pre ++ [c]).length ∧
            code.getD s ' ' = '[' ∧ jumps.getD s 0 = 0 := by
          intro s hs
          obtain ⟨e1, e2, e3⟩ := helem s hs
          exact ⟨by rw [hplen]; omega, e2, e3⟩
        have hmatched2 : ∀ j, j < (pre ++ [c]).length → j ∉ stack →
            (code.getD j ' ' = '[' →
              code.getD (jumps.getD j 0) ' ' = ']' ∧ j < jumps.getD j 0 ∧
              jumps.getD j 0 < (pre ++ [c]).length ∧
              jumps.getD (jumps.getD j 0) 0 = j) ∧
            (code.getD j ' ' = ']' →
              code.getD (jumps.getD j 0) ' ' = '[' ∧ jumps.getD j 0 < j ∧
              jumps.getD (jumps.getD j 0) 0 = j) ∧
            (code.getD j ' ' ≠ '[' → code.getD j ' ' ≠ ']' → jumps.getD j 0 = 0) := by
          intro j hj hnot
          rw [hplen] at hj
          by_cases hji : j = pre.length
          · subst hji
            refine ⟨?_, ?_, ?_⟩
            · intro hcontra
              rw [hcur] at hcontra
              exact absurd hcontra hc1
            · intro hcontra
              rw [hcur] at hcontra
              exact absurd hcontra hc2
            · intro _ _
              exact hzero _ (Nat.le_refl _)
          · have hjlt : j < pre.length := by omega
            obtain ⟨m1, m2, m3⟩ := hmatched j hjlt hnot
            refine ⟨?_, m2, m3⟩
            intro h
            obtain ⟨x1, x2, x3, x4⟩ := m1 h
            exact ⟨x1, x2, by rw [hplen]; omega, x4⟩
        have hzero2 : ∀ j, (pre ++ [c]).length ≤ j → jumps.getD j 0 = 0 := by
          intro j hj
          rw [hplen] at hj
          exact hzero j (by omega)
        rw [build_jumps_loop.eq_def]
        dsimp only
        rw [if_neg hc1, if_neg hc2]
        obtain ⟨T, hT1, hT2⟩ :=
          ih (pre ++ [c]) stack jumps hcode2 hscan2 hjlen helem2 hpair hmatched2 hzero2
        rw [hplen] at hT1
        exact ⟨T, hT1, hT2⟩

/-- C1: on a program with balanced brackets `build_jumps` succeeds, and the
returned table pairs every loop-open `i` with a strictly later loop-close
`j = table[i]` such that `table[j] = i` (so `table[table[i]] = i` on every
bracket index), with zero entries at non-bracket positions. -/
theorem c1_balanced_builds_table (code : List Char)
    (h : scanDepth code 0 = some 0) :
    ∃ T, build_jumps code = .ok T ∧ tableOk code T := by
  have h0 : scanDepth code ([] : List Nat).length = some 0 := by simpa using h
  obtain ⟨T, hT1, hT2⟩ := build_loop_ok code code [] []
    (List.replicate code.length 0) (List.nil_append code).symm h0 (by simp)
    (by intro s hs; simp at hs) List.Pairwise.nil
    (by intro j hj _; simp at hj)
    (fun j _ => getD_replicate code.length j 0)
  exact ⟨T, hT1, hT2⟩

theorem c1_witness :
    ∃ T, build_jumps ['[', ']'] = .ok T ∧ tableOk ['[', ']'] T :=
  c1_balanced_builds_table ['[', ']'] rfl

/-! ### Claims about the execution engine -/

/-- C4: a taken jump (loop-open on a zero cell, loop-close on a non-zero
cell) sets the instruction pointer to the jump-table target plus one — the
unconditional `++ip` of the `for` loop still fires — so execution resumes at
position `k + 1` and the bracket at the jump target is not re-dispatched on
arrival; in every other case the instruction pointer advances by exactly 1. -/
theorem c4_jump_skips_target (code : List Char) (jumps : List Nat) (s : ExecState) :
    (code.getD s.ip ' ' = '[' → s.t.tape.getD s.t.pos 0 = 0 →
      (step code jumps s).ip = jumps.getD s.ip 0 + 1) ∧
    (code.getD s.ip ' ' = ']' → s.t.tape.getD s.t.pos 0 ≠ 0 →
      (step code jumps s).ip = jumps.getD s.ip 0 + 1) ∧
    (¬ (code.getD s.ip ' ' = '[' ∧ s.t.tape.getD s.t.pos 0 = 0) →
     ¬ (code.getD s.ip ' ' = ']' ∧ s.t.tape.getD s.t.pos 0 ≠ 0) →
      (step code jumps s).ip = s.ip + 1) := by
  refine ⟨?_, ?_, ?_⟩
  · intro hc h0
    unfold step
    rw [hc, if_pos h0]
    simp
  · intro hc h0
    unfold step
    rw [hc, if_pos h0]
    simp
  · intro h1 h2
    by_cases hc1 : code.getD s.ip ' ' = '+'
    · unfold step; rw [hc1]; simp
    by_cases hc2 : code.getD s.ip ' ' = '-'
    · unfold step; rw [hc2]; simp
    by_cases hc3 : code.getD s.ip ' ' = '>'
    · unfold step; rw [hc3]; simp
    by_cases hc4 : code.getD s.ip ' ' = '<'
    · unfold step; rw [hc4]; simp
    by_cases hc5 : code.getD s.ip ' ' = '.'
    · unfold step; rw [hc5]; simp
    by_cases hc6 : code.getD s.ip ' ' = ','
    · unfold step; rw [hc6]
      cases hin : s.input <;> simp [hin]
    by_cases hc7 : code.getD s.ip ' ' = '['
    · have h0 : ¬ s.t.tape.getD s.t.pos 0 = 0 := fun h => h1 ⟨hc7, h⟩
      unfold step; rw [hc7, if_neg h0]; simp
    by_cases hc8 : code.getD s.ip ' ' = ']'
    · have h0 : s.t.tape.getD s.t.pos 0 = 0 := by
        by_contra h
        exact h2 ⟨hc8, h⟩
      unfold step; rw [hc8, if_neg (not_not_intro h0)]; simp
    · unfold step
      rw [if_neg hc1, if_neg hc2, if_neg hc3, if_neg hc4, if_neg hc5, if_neg hc6,
        if_neg hc7, if_neg hc8]

theorem c4_witness :
    (step ['['] [5] (initState (tape_init 1) [])).ip = List.getD [5] 0 0 + 1 :=
  (c4_jump_skips_target ['['] [5] (initState (tape_init 1) [])).1 rfl rfl

/-- C5: cursor movement wraps around the tape: with the cursor in bounds,
move-right at the last index resets it to 0 and otherwise increments it;
move-left at index 0 sets it to the last index and otherwise decrements it;
both are total (never an error). -/
theorem c5_cursor_wraparound (code : List Char) (jumps : List Nat)
    (s : ExecState) (hpos : s.t.pos < s.t.len) :
    (code.getD s.ip ' ' = '>' →
      (step code jumps s).t.pos = if s.t.pos = s.t.len - 1 then 0 else s.t.pos + 1) ∧
    (code.getD s.ip ' ' = '<' →
      (step code jumps s).t.pos = if s.t.pos = 0 then s.t.len - 1 else s.t.pos - 1) := by
  constructor
  · intro hc
    unfold step
    rw [hc]
    simp
    split_ifs <;> omega
  · intro hc
    unfold step
    rw [hc]
    simp

theorem c5_witness :
    (step ['>'] [] { ip := 0, t := tape_init 2, input := [], output := [] }).t.pos =
      if (tape_init 2).pos = (tape_init 2).len - 1 then 0 else (tape_init 2).pos + 1 :=
  (c5_cursor_wraparound ['>'] [] { ip := 0, t := tape_init 2, input := [], output := [] }
    (by decide)).1 rfl

/-- C6: cell arithmetic is exactly modulo 256 — increment wraps 255 to 0,
decrement wraps 0 to 255 — and an increment step immediately followed by a
decrement step on the same cell leaves the tape exactly as it was, for every
starting byte value. -/
theorem c6_inc_then_dec (code : List Char) (jumps : List Nat) (s : ExecState)
    (h1 : code.getD s.ip ' ' = '+')
    (h2 : code.getD (s.ip + 1) ' ' = '-')
    (hv : s.t.tape.getD s.t.pos 0 < 256)
    (hp : s.t.pos < s.t.tape.length) :
    (step code jumps (step code jumps s)).t.tape = s.t.tape ∧
    incCell 255 = 0 ∧ decCell 0 = 255 ∧
    (∀ v, v < 256 → decCell (incCell v) = v) := by
  have hdi : ∀ v, v < 256 → decCell (incCell v) = v := by
    intro v hv2
    unfold incCell decCell
    omega
  refine ⟨?_, rfl, rfl, hdi⟩
  obtain ⟨ip, ⟨tape, pos, len⟩, input, output⟩ := s
  have hv2 : tape.getD pos 0 < 256 := hv
  have hp2 : pos < tape.length := hp
  rw [step_plus code jumps ip tape pos len input output h1]
  rw [step_minus code jumps (ip + 1) (tape.set pos (incCell (tape.getD pos 0)))
    pos len input output h2]
  show (tape.set pos (incCell (tape.getD pos 0))).set pos
      (decCell ((tape.set pos (incCell (tape.getD pos 0))).getD pos 0)) = tape
  rw [getD_set_eq _ _ _ _ hp2, hdi _ hv2, List.set_set, set_getD_self _ _ _ hp2]

theorem c6_witness :
    (step ['+', '-'] [] (step ['+', '-'] [] (initState (tape_init 1) []))).t.tape =
      (initState (tape_init 1) []).t.tape :=
  (c6_inc_then_dec ['+', '-'] [] (initState (tape_init 1) []) rfl rfl
    (by decide) (by decide)).1

/-- C7: the input instruction reads one byte from the input stream; at
end-of-stream the cell at the cursor is set to 0 (and this is an ordinary
step, not an error), otherwise the cell is set to the byte read (cast to an
unsigned char, the identity on byte values) and that byte is consumed. -/
theorem c7_input_eof_yields_zero (code : List Char) (jumps : List Nat)
    (s : ExecState) (hc : code.getD s.ip ' ' = ',') :
    (s.input = [] →
      (step code jumps s).t.tape = s.t.tape.set s.t.pos 0 ∧
      (step code jumps s).input = [] ∧
      (step code jumps s).ip = s.ip + 1) ∧
    (∀ b rest, s.input = b :: rest →
      (step code jumps s).t.tape = s.t.tape.set s.t.pos (b % 256) ∧
      (step code jumps s).input = rest ∧
      (step code jumps s).ip = s.ip + 1) ∧
    (∀ b : Nat, b < 256 → b % 256 = b) := by
  obtain ⟨ip, ⟨tape, pos, len⟩, input, output⟩ := s
  refine ⟨?_, ?_, fun b hb => Nat.mod_eq_of_lt hb⟩
  · intro hin
    have hin2 : input = [] := hin
    subst hin2
    rw [step_input_nil code jumps ip tape pos len output hc]
    exact ⟨rfl, rfl, rfl⟩
  · intro b rest hin
    have hin2 : input = b :: rest := hin
    subst hin2
    rw [step_input_cons code jumps ip tape pos len b rest output hc]
    exact ⟨rfl, rfl, rfl⟩

theorem c7_witness :
    (step [','] [] { ip := 0, t := tape_init 1, input := [65], output := [] }).t.tape =
      (tape_init 1).tape.set 0 (65 % 256) ∧
    (step [','] [] { ip := 0, t := tape_init 1, input := [65], output := [] }).input = [] ∧
    (step [','] [] { ip := 0, t := tape_init 1, input := [65], output := [] }).ip = 0 + 1 :=
  (c7_input_eof_yields_zero [','] []
    { ip := 0, t := tape_init 1, input := [65], output := [] } rfl).2.1 65 [] rfl

/-- C8: if jump-table construction fails, `exec` runs zero instructions: it
returns at once with the caller's tape untouched, no input consumed and no
output produced, at every fuel. -/
theorem c8_build_failure_runs_nothing (code : List Char) (t : Tape)
    (input : List Nat) (fuel : Nat) (e : MatchError)
    (h : build_jumps code = .error e) :
    exec code t input fuel = some (t, input, []) := by
  unfold exec
  rw [h]

theorem c8_witness :
    exec [']'] (tape_init 3) [7] 5 = some (tape_init 3, [7], []) :=
  c8_build_failure_runs_nothing [']'] (tape_init 3) [7] 5
    (.unmatchedClose 0) rfl

/-- C9: for the empty program the requested tape length 0 is coerced to 1,
jump-table construction succeeds with the empty table, and the run terminates
normally — at any fuel, in particular with zero steps taken — leaving the
tape, cursor and input untouched and producing no output. -/
theorem c9_empty_program (input : List Nat) (fuel : Nat) :
    tape_init 0 = { tape := [0], pos := 0, len := 1 } ∧
    build_jumps ([] : List Char) = .ok [] ∧
    exec [] (tape_init 0) input fuel = some (tape_init 0, input, []) := by
  refine ⟨rfl, rfl, ?_⟩
  cases fuel <;> rfl

/-- C10, initialisation half plus preservation half: after `tape_init` the
cursor is 0 and every cell is 0 and the tape is well-formed; and a single
`step` preserves tape well-formedness (length ≥ 1, cursor strictly in
bounds, buffer length unchanged), so every cell access the engine performs
is at a valid index. -/
theorem c10_cursor_in_bounds :
    (∀ len, TapeWF (tape_init len) ∧ (tape_init len).pos = 0 ∧
      ∀ i, i < (tape_init len).len → (tape_init len).tape.getD i 0 = 0) ∧
    (∀ code jumps s, TapeWF s.t → TapeWF (step code jumps s).t) := by
  constructor
  · intro len
    refine ⟨⟨by simp [tape_init], ?_, ?_⟩, rfl, ?_⟩
    · simp only [tape_init]
      split <;> omega
    · simp only [tape_init]
      split <;> omega
    · intro i _
      exact getD_replicate _ i 0
  · intro code jumps s hwf
    obtain ⟨ip, ⟨tape, pos, len⟩, input, output⟩ := s
    obtain ⟨hlen, h1, hpos⟩ := hwf
    have hlen2 : len = tape.length := hlen
    have h12 : 1 ≤ len := h1
    have hpos2 : pos < len := hpos
    by_cases hc1 : code.getD ip ' ' = '+'
    · rw [step_plus code jumps ip tape pos len input output hc1]
      exact ⟨by simpa using hlen2, h12, hpos2⟩
    by_cases hc2 : code.getD ip ' ' = '-'
    · rw [step_minus code jumps ip tape pos len input output hc2]
      exact ⟨by simpa using hlen2, h12, hpos2⟩
    by_cases hc3 : code.getD ip ' ' = '>'
    · rw [step_right code jumps ip tape pos len input output hc3]
      refine ⟨hlen2, h12, ?_⟩
      show (if pos + 1 ≥ len then 0 else pos + 1) < len
      split <;> omega
    by_cases hc4 : code.getD ip ' ' = '<'
    · rw [step_left code jumps ip tape pos len input output hc4]
      refine ⟨hlen2, h12, ?_⟩
      show (if pos = 0 then len - 1 else pos - 1) < len
      split <;> omega
    by_cases hc5 : code.getD ip ' ' = '.'
    · rw [step_output code jumps ip tape pos len input output hc5]
      exact ⟨hlen2, h12, hpos2⟩
    by_cases hc6 : code.getD ip ' ' = ','
    · cases input with
      | nil =>
        rw [step_input_nil code jumps ip tape pos len output hc6]
        exact ⟨by simpa using hlen2, h12, hpos2⟩
      | cons b rest =>
        rw [step_input_cons code jumps ip tape pos len b rest output hc6]
        exact ⟨by simpa using hlen2, h12, hpos2⟩
    by_cases hc7 : code.getD ip ' ' = '['
    · by_cases h0 : tape.getD pos 0 = 0
      · rw [step_open_zero code jumps ip tape pos len input output hc7 h0]
        exact ⟨hlen2, h12, hpos2⟩
      · rw [step_open_nonzero code jumps ip tape pos len input output hc7 h0]
        exact ⟨hlen2, h12, hpos2⟩
    by_cases hc8 : code.getD ip ' ' = ']'
    · by_cases h0 : tape.getD pos 0 = 0
      · rw [step_close_zero code jumps ip tape pos len input output hc8 h0]
        exact ⟨hlen2, h12, hpos2⟩
      · rw [step_close_nonzero code jumps ip tape pos len input output hc8 h0]
        exact ⟨hlen2, h12, hpos2⟩
    · rw [step_other code jumps ip tape pos len input output hc1 hc2 hc3 hc4 hc5 hc6
        hc7 hc8]
      exact ⟨hlen2, h12, hpos2⟩

theorem c10_witness : TapeWF (step ['>'] [] (initState (tape_init 2) [])).t :=
  c10_cursor_in_bounds.2 ['>'] [] (initState (tape_init 2) [])
    ⟨rfl, by decide, by decide⟩

end Bfc
